import Mathlib

/-!
Verification of the wide-to-long ("melt") Reshaper described by the
repository's design document against its behaviour.  The repository's only
source file is the notebook `working_with_tidy_data.ipynb`, whose cell 6
performs the reshape with `pd.melt` on the concrete table

  untidy = DataFrame({treatment_a: [9,16,3], treatment_b: [2,11,1]},
                     index = [John Smith, Jane Doe, Mary Johnson])

followed by an in-place `replace` on the variable column.  The reusable
`toLong` operation, its validation and its error kinds exist only in the
design document, so `toLong` below is modelled from the spec; the notebook
pipeline (melt without rename, then replace on the produced records, with the
index/columns name mutations) is modelled separately as `meltCell`.
-/

/-- Values of the tables are the notebook's integer measurements. -/
abbrev Value := Int

/-- A WideTable: an ordered sequence of row identifiers and a mapping
(ordered association list) from column identifiers to value sequences,
parallel to the row identifiers. -/
structure WideTable where
  rowIds : List String
  cols : List (String × List Value)
deriving Repr, DecidableEq

/-- A LongRecord: (row identifier, variable identifier, value). -/
abbrev LongRec := String × String × Value

/-- A LongTable: the three output field names together with the ordered
sequence of LongRecords. -/
structure LongTable where
  rowLabel : String
  varLabel : String
  valueLabel : String
  records : List LongRec
deriving Repr, DecidableEq

/-- The three error kinds of the Reshaper. -/
inductive ReshapeError where
  | invalidShape
  | duplicateLabel
  | missingColumn
deriving Repr, DecidableEq

instance {ε α : Type} [DecidableEq ε] [DecidableEq α] : DecidableEq (Except ε α) :=
  fun x y =>
    match x, y with
    | .error a, .error b =>
      if h : a = b then .isTrue (by rw [h]) else .isFalse (by intro hc; cases hc; exact h rfl)
    | .error _, .ok _ => .isFalse (by intro hc; cases hc)
    | .ok _, .error _ => .isFalse (by intro hc; cases hc)
    | .ok a, .ok b =>
      if h : a = b then .isTrue (by rw [h]) else .isFalse (by intro hc; cases hc; exact h rfl)

/-- Variable-identifier substitution: the replacement for a column
identifier, or the identifier itself when absent from the mapping
(Python's `rename.get(column, column)`). -/
def renameGet (rn : List (String × String)) (c : String) : String :=
  (rn.lookup c).getD c

/-- The emitted records: for each column identifier in column order, for
each row identifier in row order, one record
(row identifier, renamed column identifier, value at that row). -/
def meltRecords (w : WideTable) (rn : List (String × String)) : List LongRec :=
  w.cols.flatMap fun c =>
    (w.rowIds.zip c.2).map fun rv => (rv.1, renameGet rn c.1, rv.2)

/-- The three output field names are not pairwise distinct. -/
abbrev labelsDup (a b c : String) : Prop := a = b ∨ a = c ∨ b = c

/-- Some column's value-sequence length differs from the row count. -/
abbrev shapeBad (w : WideTable) : Prop :=
  ∃ c ∈ w.cols, c.2.length ≠ w.rowIds.length

/-- Some rename entry targets a column identifier that does not exist. -/
abbrev renameBad (w : WideTable) (rn : List (String × String)) : Prop :=
  ∃ e ∈ rn, ∀ c ∈ w.cols, c.1 ≠ e.1

/-- Modelled from the spec: the Reshaper's `toLong` contract.  The notebook
only contains the one-off `pd.melt` call; the reusable operation with its
`DuplicateLabelError` / `InvalidShapeError` / `MissingColumnError`
validation (all performed before any record is produced) exists only in the
design document and is transcribed here from its §4.1 contract and
algorithm. -/
def toLong (wide : WideTable) (rowLabel variableLabel valueLabel : String)
    (rename : List (String × String) := []) : Except ReshapeError LongTable :=
  if labelsDup rowLabel variableLabel valueLabel then
    .error .duplicateLabel
  else if shapeBad wide then
    .error .invalidShape
  else if renameBad wide rename then
    .error .missingColumn
  else
    .ok ⟨rowLabel, variableLabel, valueLabel, meltRecords wide rename⟩

/-- The (row identifier, variable identifier) pairs of a record list. -/
def longPairs (recs : List LongRec) : List (String × String) :=
  recs.map fun q => (q.1, q.2.1)

/-- The effective variable identifiers of a WideTable under a rename:
its column identifiers sent through `renameGet`, in column order. -/
def effNames (w : WideTable) (rn : List (String × String)) : List String :=
  w.cols.map fun c => renameGet rn c.1

/-- The notebook's example table from cell 4. -/
def untidyExample : WideTable :=
  ⟨["John Smith", "Jane Doe", "Mary Johnson"],
   [("treatment_a", [9, 16, 3]), ("treatment_b", [2, 11, 1])]⟩

/-- When all three validations pass, `toLong` succeeds with the melted
records under the requested labels. -/
theorem toLong_ok (w : WideTable) (a b c : String) (rn : List (String × String))
    (hl : ¬ labelsDup a b c) (hs : ¬ shapeBad w) (hr : ¬ renameBad w rn) :
    toLong w a b c rn = .ok ⟨a, b, c, meltRecords w rn⟩ := by
  simp [toLong, hl, hs, hr]

/-- Projecting a function of the first components out of a full zip ignores
the second list. -/
theorem zip_map_fst_fun {α β γ : Type} (g : α → γ) (rows : List α) :
    ∀ vs : List β, vs.length = rows.length →
      (rows.zip vs).map (fun rv => g rv.1) = rows.map g := by
  induction rows with
  | nil => intro vs _; simp
  | cons r rows ih =>
    intro vs h
    cases vs with
    | nil => simp at h
    | cons v vs =>
      simp only [List.zip_cons_cons, List.map_cons]
      rw [ih vs (by simpa using h)]

/-- A flatMap whose blocks all have length `R` has length `|blocks| * R`. -/
theorem flatMap_length_const {α β : Type} (f : α → List β) (R : Nat) :
    ∀ cs : List α, (∀ c ∈ cs, (f c).length = R) →
      (cs.flatMap f).length = cs.length * R := by
  intro cs
  induction cs with
  | nil => intro _; simp
  | cons c cs ih =>
    intro h
    simp only [List.flatMap_cons, List.length_append, List.length_cons]
    rw [h c (by simp), ih (fun x hx => h x (by simp [hx]))]
    ring

/-- Indexing into a flatMap whose blocks all have length `R`: position
`i * R + j` lands at offset `j` of block `i`. -/
theorem flatMap_getElem_blocks {α β : Type} (f : α → List β) (R : Nat) :
    ∀ (cs : List α), (∀ c ∈ cs, (f c).length = R) →
    ∀ (i j : Nat) (hi : i < cs.length) (hj2 : j < (f (cs.get ⟨i, hi⟩)).length)
      (hidx : i * R + j < (cs.flatMap f).length),
      (cs.flatMap f).get ⟨i * R + j, hidx⟩ = (f (cs.get ⟨i, hi⟩)).get ⟨j, hj2⟩ := by
  intro cs
  induction cs with
  | nil => intro _ i j hi; exact absurd hi (by simp)
  | cons c cs ih =>
    intro hlen i j
    cases i with
    | zero =>
      intro hi hj2 hidx
      simp only [List.get_eq_getElem, List.flatMap_cons] at *
      simp only [Nat.zero_mul, Nat.zero_add] at *
      exact List.getElem_append_left hj2
    | succ i =>
      intro hi hj2 hidx
      have hcR : (f c).length = R := hlen c (by simp)
      have hmul : (i + 1) * R = i * R + R := by ring
      have hidx2 : i * R + j < (cs.flatMap f).length := by
        simp only [List.flatMap_cons, List.length_append] at hidx
        omega
      have ihres := ih (fun x hx => hlen x (by simp [hx])) i j (by simpa using hi)
        (by simpa using hj2) hidx2
      simp only [List.get_eq_getElem, List.flatMap_cons, List.getElem_cons_succ] at *
      rw [List.getElem_append_right (by omega)]
      convert ihres using 2
      omega

/-- Pointwise form of a passing shape validation. -/
theorem shape_all (w : WideTable) (hs : ¬ shapeBad w) :
    ∀ c ∈ w.cols, c.2.length = w.rowIds.length := by
  intro c hc
  by_contra hne
  exact hs ⟨c, hc, hne⟩

/-- Record count of the melt: one record per (column, row) pair. -/
theorem meltRecords_length (w : WideTable) (rn : List (String × String))
    (hs : ¬ shapeBad w) :
    (meltRecords w rn).length = w.cols.length * w.rowIds.length := by
  refine flatMap_length_const _ _ _ ?_
  intro c hc
  simp [shape_all w hs c hc]

/-- Congruence for flatMap over the members of a list. -/
theorem flatMap_congr_mem {α β : Type} (l : List α) (f g : α → List β)
    (h : ∀ a ∈ l, f a = g a) : l.flatMap f = l.flatMap g := by
  induction l with
  | nil => rfl
  | cons a l ih =>
    simp only [List.flatMap_cons]
    rw [h a (by simp), ih (fun x hx => h x (by simp [hx]))]

/-- The (row, variable) pairs of the melt: for each column, the row
identifiers paired with that column's effective name. -/
theorem longPairs_melt (w : WideTable) (rn : List (String × String))
    (hs : ¬ shapeBad w) :
    longPairs (meltRecords w rn) =
      w.cols.flatMap fun c => w.rowIds.map fun r => (r, renameGet rn c.1) := by
  unfold longPairs meltRecords
  rw [List.map_flatMap]
  refine flatMap_congr_mem _ _ _ ?_
  intro c hc
  rw [List.map_map]
  exact zip_map_fst_fun (fun r => (r, renameGet rn c.1)) w.rowIds c.2
    (shape_all w hs c hc)

/-- The pairs of the melt are duplicate-free when the row identifiers are
distinct and the effective variable identifiers are distinct. -/
theorem longPairs_nodup (w : WideTable) (rn : List (String × String))
    (hs : ¬ shapeBad w) (hrow : w.rowIds.Nodup) (heff : (effNames w rn).Nodup) :
    (longPairs (meltRecords w rn)).Nodup := by
  rw [longPairs_melt w rn hs, List.nodup_flatMap]
  constructor
  · intro c _
    exact hrow.map (fun r s hrs => congrArg Prod.fst hrs)
  · have hpw : w.cols.Pairwise
        (fun c1 c2 => renameGet rn c1.1 ≠ renameGet rn c2.1) := by
      have := heff
      rw [effNames, List.Nodup, List.pairwise_map] at this
      exact this
    refine hpw.imp ?_
    intro c1 c2 hne p hp1 hp2
    rw [List.mem_map] at hp1 hp2
    obtain ⟨r1, _, he1⟩ := hp1
    obtain ⟨r2, _, he2⟩ := hp2
    exact hne ((congrArg Prod.snd he1).trans (congrArg Prod.snd he2).symm)

/-- Membership in the pairs of the melt: exactly the cross-product of row
identifiers and effective variable identifiers. -/
theorem longPairs_mem (w : WideTable) (rn : List (String × String))
    (hs : ¬ shapeBad w) (p : String × String) :
    p ∈ longPairs (meltRecords w rn) ↔ p.1 ∈ w.rowIds ∧ p.2 ∈ effNames w rn := by
  rw [longPairs_melt w rn hs]
  simp only [List.mem_flatMap, List.mem_map, effNames]
  constructor
  · rintro ⟨c, hc, r, hr, he⟩
    exact ⟨he ▸ hr, he ▸ ⟨c, hc, rfl⟩⟩
  · rintro ⟨h1, c, hc, he⟩
    exact ⟨c, hc, p.1, h1, by rw [he]⟩

/-- The record at position `i * |rows| + j` of the melt is the observation
of row `j` under column `i`. -/
theorem meltRecords_getElem (w : WideTable) (rn : List (String × String))
    (hs : ¬ shapeBad w) (i j : Nat) (hi : i < w.cols.length)
    (hj : j < w.rowIds.length) (hjv : j < (w.cols.get ⟨i, hi⟩).2.length)
    (hidx : i * w.rowIds.length + j < (meltRecords w rn).length) :
    (meltRecords w rn).get ⟨i * w.rowIds.length + j, hidx⟩ =
      (w.rowIds.get ⟨j, hj⟩, renameGet rn (w.cols.get ⟨i, hi⟩).1,
       (w.cols.get ⟨i, hi⟩).2.get ⟨j, hjv⟩) := by
  have hblock : ∀ c ∈ w.cols,
      ((w.rowIds.zip c.2).map fun rv => (rv.1, renameGet rn c.1, rv.2)).length =
        w.rowIds.length := by
    intro c hc
    simp [shape_all w hs c hc]
  have hj2 : j < ((w.rowIds.zip (w.cols.get ⟨i, hi⟩).2).map fun rv =>
      (rv.1, renameGet rn (w.cols.get ⟨i, hi⟩).1, rv.2)).length := by
    rw [hblock _ (List.get_mem w.cols i hi)]
    exact hj
  simp only [meltRecords] at hidx ⊢
  rw [flatMap_getElem_blocks
    (fun c => (w.rowIds.zip c.2).map fun rv => (rv.1, renameGet rn c.1, rv.2))
    w.rowIds.length w.cols hblock i j hi hj2 hidx]
  simp [List.get_eq_getElem, List.getElem_map, List.getElem_zip]

/-- C2: for every valid input (distinct labels, consistent shape, rename
keys all present), `toLong` succeeds and emits its records in column-major
order — for each column identifier in the WideTable's column order, for
each row identifier in the WideTable's row order, one record
(row identifier, rename.get(column, column), WideTable[column][row-index]):
the record at position `i * |rows| + j` is the observation of row `j`
under column `i`. -/
theorem toLong_column_major (w : WideTable) (a b c : String)
    (rn : List (String × String))
    (hl : ¬ labelsDup a b c) (hs : ¬ shapeBad w) (hr : ¬ renameBad w rn) :
    toLong w a b c rn = .ok ⟨a, b, c, meltRecords w rn⟩ ∧
    (meltRecords w rn).length = w.cols.length * w.rowIds.length ∧
    ∀ (i j : Nat) (hi : i < w.cols.length) (hj : j < w.rowIds.length)
      (hjv : j < (w.cols.get ⟨i, hi⟩).2.length)
      (hidx : i * w.rowIds.length + j < (meltRecords w rn).length),
      (meltRecords w rn).get ⟨i * w.rowIds.length + j, hidx⟩ =
        (w.rowIds.get ⟨j, hj⟩, renameGet rn (w.cols.get ⟨i, hi⟩).1,
         (w.cols.get ⟨i, hi⟩).2.get ⟨j, hjv⟩) :=
  ⟨toLong_ok w a b c rn hl hs hr, meltRecords_length w rn hs,
   fun i j hi hj hjv hidx => meltRecords_getElem w rn hs i j hi hj hjv hidx⟩

/-- C2 witness: on the notebook's table with rename a/b, the output is
exactly the six records of the spec's example, in that order. -/
theorem toLong_column_major_witness :
    toLong untidyExample "person" "treatment" "IgG_level"
        [("treatment_a", "a"), ("treatment_b", "b")] =
      .ok ⟨"person", "treatment", "IgG_level",
        [("John Smith", "a", 9), ("Jane Doe", "a", 16), ("Mary Johnson", "a", 3),
         ("John Smith", "b", 2), ("Jane Doe", "b", 11), ("Mary Johnson", "b", 1)]⟩ :=
  ((toLong_column_major untidyExample "person" "treatment" "IgG_level"
      [("treatment_a", "a"), ("treatment_b", "b")] (by decide) (by decide)
      (by decide)).1).trans (by decide)

/-- C1 (amended): for every valid input the record count equals
rows × cols, with no distinctness assumption; and when additionally the
row identifiers are pairwise distinct and the effective variable
identifiers (column identifiers sent through the rename) are pairwise
distinct, the (row identifier, variable identifier) pairs of the output
cover exactly the cross-product of the row identifiers and the effective
variable identifiers, each exactly once.  (The exactly-once property fails
without the distinctness, see the counterexample.) -/
theorem toLong_cross_product (w : WideTable) (a b c : String)
    (rn : List (String × String))
    (hl : ¬ labelsDup a b c) (hs : ¬ shapeBad w) (hr : ¬ renameBad w rn) :
    toLong w a b c rn = .ok ⟨a, b, c, meltRecords w rn⟩ ∧
    (meltRecords w rn).length = w.rowIds.length * w.cols.length ∧
    (w.rowIds.Nodup → (effNames w rn).Nodup →
      (longPairs (meltRecords w rn)).Nodup ∧
      ∀ p : String × String,
        p ∈ longPairs (meltRecords w rn) ↔ p.1 ∈ w.rowIds ∧ p.2 ∈ effNames w rn) :=
  ⟨toLong_ok w a b c rn hl hs hr,
   (meltRecords_length w rn hs).trans (Nat.mul_comm _ _),
   fun hrow heff =>
     ⟨longPairs_nodup w rn hs hrow heff, longPairs_mem w rn hs⟩⟩

/-- C1 witness: a 2×2 table, identity rename: four records
unconditionally, and under the (decidable) distinctness duplicate-free
pairs with cross-product membership. -/
theorem toLong_cross_product_witness :
    toLong ⟨["r1", "r2"], [("ca", [1, 2]), ("cb", [3, 4])]⟩ "p" "t" "v" [] =
      .ok ⟨"p", "t", "v",
        meltRecords ⟨["r1", "r2"], [("ca", [1, 2]), ("cb", [3, 4])]⟩ []⟩ ∧
    (meltRecords ⟨["r1", "r2"], [("ca", [1, 2]), ("cb", [3, 4])]⟩ []).length = 4 ∧
    (longPairs (meltRecords ⟨["r1", "r2"], [("ca", [1, 2]), ("cb", [3, 4])]⟩ [])).Nodup ∧
    (("r1", "cb") ∈
        longPairs (meltRecords ⟨["r1", "r2"], [("ca", [1, 2]), ("cb", [3, 4])]⟩ []) ↔
      "r1" ∈ (⟨["r1", "r2"], [("ca", [1, 2]), ("cb", [3, 4])]⟩ : WideTable).rowIds ∧
      "cb" ∈ effNames ⟨["r1", "r2"], [("ca", [1, 2]), ("cb", [3, 4])]⟩ []) := by
  have h := toLong_cross_product ⟨["r1", "r2"], [("ca", [1, 2]), ("cb", [3, 4])]⟩
    "p" "t" "v" [] (by decide) (by decide) (by decide)
  have h2 := h.2.2 (by decide) (by decide)
  exact ⟨h.1, h.2.1.trans (by decide), h2.1, h2.2 ("r1", "cb")⟩

/-- C1 counterexample: the WideTable invariant does not force distinct row
identifiers, and on a table with a repeated row identifier the pair
("x", "c") appears twice, refuting the exactly-once coverage as stated. -/
theorem toLong_cross_product_cex :
    toLong ⟨["x", "x"], [("c", [1, 2])]⟩ "p" "t" "v" [] =
      .ok ⟨"p", "t", "v", [("x", "c", 1), ("x", "c", 2)]⟩ ∧
    ¬ (longPairs [("x", "c", 1), ("x", "c", 2)]).Nodup :=
  ⟨by decide, by decide⟩

/-- C4: when the rename mapping contains a key that is not among the
column identifiers (and the earlier validations pass), `toLong` fails with
`MissingColumnError` and returns no LongTable. -/
theorem toLong_missing_column (w : WideTable) (a b c : String)
    (rn : List (String × String))
    (hl : ¬ labelsDup a b c) (hs : ¬ shapeBad w) (hbad : renameBad w rn) :
    toLong w a b c rn = .error .missingColumn := by
  simp [toLong, hl, hs, hbad]

/-- C4 witness: a rename entry for a nonexistent column "zzz". -/
theorem toLong_missing_column_witness :
    toLong ⟨["r"], [("c", [1])]⟩ "p" "t" "v" [("zzz", "q")] =
      .error .missingColumn :=
  toLong_missing_column ⟨["r"], [("c", [1])]⟩ "p" "t" "v" [("zzz", "q")]
    (by decide) (by decide) (by decide)

/-- C5: when some column's value-sequence length differs from the
row-identifier count (and the labels are distinct), `toLong` fails with
`InvalidShapeError`; no partial LongTable exists since the result is a
single error value — validation precedes any record production. -/
theorem toLong_invalid_shape (w : WideTable) (a b c : String)
    (rn : List (String × String))
    (hl : ¬ labelsDup a b c) (hbad : shapeBad w) :
    toLong w a b c rn = .error .invalidShape := by
  simp [toLong, hl, hbad]

/-- C5 witness: the spec's error example, treatment_a with 3 values but
treatment_b with 2. -/
theorem toLong_invalid_shape_witness :
    toLong ⟨["John Smith", "Jane Doe", "Mary Johnson"],
        [("treatment_a", [9, 16, 3]), ("treatment_b", [2, 11])]⟩
      "person" "treatment" "IgG_level" [] = .error .invalidShape :=
  toLong_invalid_shape ⟨["John Smith", "Jane Doe", "Mary Johnson"],
      [("treatment_a", [9, 16, 3]), ("treatment_b", [2, 11])]⟩
    "person" "treatment" "IgG_level" [] (by decide) (by decide)

/-- C6: when the three output field names are not pairwise distinct,
`toLong` fails with `DuplicateLabelError` (unconditionally — this check
runs first); when they are pairwise distinct and non-empty, that error is
never returned. -/
theorem toLong_duplicate_label (w : WideTable) (a b c : String)
    (rn : List (String × String)) :
    (labelsDup a b c → toLong w a b c rn = .error .duplicateLabel) ∧
    (¬ labelsDup a b c ∧ a ≠ "" ∧ b ≠ "" ∧ c ≠ "" →
      toLong w a b c rn ≠ .error .duplicateLabel) := by
  constructor
  · intro h
    simp [toLong, h]
  · rintro ⟨hnd, -, -, -⟩
    simp only [toLong, if_neg hnd]
    split
    · simp
    · split
      · simp
      · simp

/-- C6 witness: equal row and variable labels produce the error, and
distinct non-empty labels never do, shown on a concrete table. -/
theorem toLong_duplicate_label_witness :
    toLong ⟨["r"], [("c", [5])]⟩ "t" "t" "v" [] = .error .duplicateLabel ∧
    toLong ⟨["r"], [("c", [5])]⟩ "p" "t" "v" [] ≠ .error .duplicateLabel :=
  ⟨(toLong_duplicate_label ⟨["r"], [("c", [5])]⟩ "t" "t" "v" []).1 (by decide),
   (toLong_duplicate_label ⟨["r"], [("c", [5])]⟩ "p" "t" "v" []).2
     (by refine ⟨by decide, by decide, by decide, by decide⟩)⟩

/-- The melt of a table with no rows or no columns has no records. -/
theorem meltRecords_empty (w : WideTable) (rn : List (String × String))
    (hempty : w.rowIds = [] ∨ w.cols = []) : meltRecords w rn = [] := by
  rcases hempty with h | h
  · unfold meltRecords
    rw [h]
    simp
  · unfold meltRecords
    rw [h]
    simp

/-- C7: a WideTable with zero row identifiers or zero column identifiers
(and otherwise valid arguments) yields an empty LongTable, not an error. -/
theorem toLong_empty (w : WideTable) (a b c : String)
    (rn : List (String × String))
    (hl : ¬ labelsDup a b c) (hs : ¬ shapeBad w) (hr : ¬ renameBad w rn)
    (hempty : w.rowIds = [] ∨ w.cols = []) :
    toLong w a b c rn = .ok ⟨a, b, c, []⟩ := by
  rw [toLong_ok w a b c rn hl hs hr, meltRecords_empty w rn hempty]

/-- C7 witness: a table with rows but no columns, and one with columns of
zero rows, both melt to the empty LongTable. -/
theorem toLong_empty_witness :
    toLong ⟨["r1", "r2"], []⟩ "p" "t" "v" [] = .ok ⟨"p", "t", "v", []⟩ ∧
    toLong ⟨[], [("c", [])]⟩ "p" "t" "v" [] = .ok ⟨"p", "t", "v", []⟩ :=
  ⟨toLong_empty ⟨["r1", "r2"], []⟩ "p" "t" "v" [] (by decide) (by decide)
     (by decide) (by decide),
   toLong_empty ⟨[], [("c", [])]⟩ "p" "t" "v" [] (by decide) (by decide)
     (by decide) (by decide)⟩

/-- C9: `toLong` is deterministic — two invocations on identical arguments
return equal results, and when both succeed the two record sequences are
element-wise identical (same ordering); the embedding is a pure function,
so no unordered iteration can enter. -/
theorem toLong_deterministic (w w2 : WideTable) (a b c a2 b2 c2 : String)
    (rn rn2 : List (String × String))
    (hw : w = w2) (ha : a = a2) (hb : b = b2) (hc : c = c2) (hrn : rn = rn2) :
    toLong w a b c rn = toLong w2 a2 b2 c2 rn2 ∧
    ∀ t1 t2, toLong w a b c rn = .ok t1 → toLong w2 a2 b2 c2 rn2 = .ok t2 →
      t1.records = t2.records := by
  subst hw ha hb hc hrn
  refine ⟨rfl, ?_⟩
  intro t1 t2 h1 h2
  rw [h1] at h2
  cases h2
  rfl

/-- C9 witness: two runs on the notebook's example agree, record lists
included. -/
theorem toLong_deterministic_witness :
    toLong untidyExample "person" "treatment" "IgG_level" [("treatment_a", "a")] =
      toLong untidyExample "person" "treatment" "IgG_level" [("treatment_a", "a")] ∧
    ∀ t1 t2,
      toLong untidyExample "person" "treatment" "IgG_level" [("treatment_a", "a")] =
        .ok t1 →
      toLong untidyExample "person" "treatment" "IgG_level" [("treatment_a", "a")] =
        .ok t2 →
      t1.records = t2.records :=
  toLong_deterministic untidyExample untidyExample "person" "treatment"
    "IgG_level" "person" "treatment" "IgG_level" [("treatment_a", "a")]
    [("treatment_a", "a")] rfl rfl rfl rfl rfl

/-- A pandas DataFrame in wide form: the WideTable data together with the
mutable index/columns name metadata the notebook assigns to. -/
structure PandasWide where
  data : WideTable
  indexName : Option String
  columnsName : Option String
deriving Repr, DecidableEq

/-- Series.replace applied to the variable column of already-produced
records (the notebook's in-place `replace({...}, inplace=True)`). -/
def replaceVar (m : List (String × String)) (recs : List LongRec) : List LongRec :=
  recs.map fun q => (q.1, renameGet m q.2.1, q.2.2)

/-- The notebook's substitution table for cell 6. -/
def cell6Rename : List (String × String) :=
  [("treatment_a", "a"), ("treatment_b", "b")]

/-- The notebook's cell 6 with its state made explicit: assign
`index.name` and `columns.name` on the input frame (a metadata mutation of
the input), melt with the row identifiers as id_vars and value name
`IgG_level`, then replace the variable column in place on the produced
table.  Returns the frame as cell 6 leaves it together with the tidy
table. -/
def meltCell (st : PandasWide) : PandasWide × LongTable :=
  let st1 : PandasWide :=
    { st with indexName := some "person", columnsName := some "treatment" }
  let tidy0 : LongTable :=
    ⟨"person", "treatment", "IgG_level", meltRecords st1.data []⟩
  let tidy : LongTable :=
    { tidy0 with records := replaceVar cell6Rename tidy0.records }
  (st1, tidy)

/-- Replacing the variable column after an identity-rename melt equals
melting with the rename integrated into the reshape. -/
theorem replaceVar_melt (w : WideTable) (m : List (String × String)) :
    replaceVar m (meltRecords w []) = meltRecords w m := by
  unfold replaceVar meltRecords
  rw [List.map_flatMap]
  refine flatMap_congr_mem _ _ _ ?_
  intro c _
  rw [List.map_map]
  refine List.map_congr_left ?_
  intro rv _
  simp [Function.comp, renameGet]

/-- C3: the notebook's reshape leaves the input WideTable unchanged — row
identifiers, column identifiers and values after the cell equal those
before (only the name metadata of the frame is assigned) — and the
produced records equal the pure melt-with-rename of the original input, so
the in-place variable replacement amounts to the integrated pure
transform with no further mutation. -/
theorem meltCell_pure (st : PandasWide) :
    ((meltCell st).1).data = st.data ∧
    ((meltCell st).2).records = meltRecords st.data cell6Rename :=
  ⟨rfl, replaceVar_melt st.data cell6Rename⟩

/-- C10: when the rename maps two distinct column identifiers to the same
variable identifier (and the validations pass), `toLong` completes without
error and its output contains a duplicated (row identifier, variable
identifier) pair: the no-duplicates invariant is silently violated. -/
theorem toLong_rename_collision (w : WideTable) (a b c : String)
    (rn : List (String × String))
    (hl : ¬ labelsDup a b c) (hs : ¬ shapeBad w) (hr : ¬ renameBad w rn)
    (i1 i2 : Nat) (h1 : i1 < w.cols.length) (h2 : i2 < w.cols.length)
    (hid : (w.cols.get ⟨i1, h1⟩).1 ≠ (w.cols.get ⟨i2, h2⟩).1)
    (hcoll : renameGet rn (w.cols.get ⟨i1, h1⟩).1 =
      renameGet rn (w.cols.get ⟨i2, h2⟩).1)
    (hrows : w.rowIds ≠ []) :
    toLong w a b c rn = .ok ⟨a, b, c, meltRecords w rn⟩ ∧
    ¬ (longPairs (meltRecords w rn)).Nodup := by
  refine ⟨toLong_ok w a b c rn hl hs hr, ?_⟩
  intro hnd
  rw [longPairs_melt w rn hs, List.nodup_flatMap] at hnd
  have hpw := hnd.2
  rw [List.pairwise_iff_getElem] at hpw
  have hR : 0 < w.rowIds.length := List.length_pos.mpr hrows
  have hr0 : w.rowIds.get ⟨0, hR⟩ ∈ w.rowIds := List.get_mem _ _ _
  have hne : i1 ≠ i2 := fun he => hid (by subst he; rfl)
  rcases Nat.lt_or_ge i1 i2 with hlt | hge
  · have hd := hpw i1 i2 h1 h2 hlt
    simp only [Function.onFun] at hd
    refine hd (a := (w.rowIds.get ⟨0, hR⟩, renameGet rn (w.cols.get ⟨i1, h1⟩).1))
      ?_ ?_
    · exact List.mem_map_of_mem (fun r => (r, renameGet rn w.cols[i1].1)) hr0
    · rw [hcoll]
      exact List.mem_map_of_mem (fun r => (r, renameGet rn w.cols[i2].1)) hr0
  · have hlt2 : i2 < i1 := Nat.lt_of_le_of_ne hge (fun he => hne he.symm)
    have hd := hpw i2 i1 h2 h1 hlt2
    simp only [Function.onFun] at hd
    refine hd (a := (w.rowIds.get ⟨0, hR⟩, renameGet rn (w.cols.get ⟨i2, h2⟩).1))
      ?_ ?_
    · exact List.mem_map_of_mem (fun r => (r, renameGet rn w.cols[i2].1)) hr0
    · rw [← hcoll]
      exact List.mem_map_of_mem (fun r => (r, renameGet rn w.cols[i1].1)) hr0

/-- C10 witness: renaming c1 and c2 both to "v" succeeds and yields the
duplicated pair ("x", "v"). -/
theorem toLong_rename_collision_witness :
    toLong ⟨["x"], [("c1", [1]), ("c2", [2])]⟩ "p" "t" "val"
        [("c1", "v"), ("c2", "v")] =
      .ok ⟨"p", "t", "val", [("x", "v", 1), ("x", "v", 2)]⟩ ∧
    ¬ (longPairs [("x", "v", 1), ("x", "v", 2)]).Nodup := by
  have h := toLong_rename_collision ⟨["x"], [("c1", [1]), ("c2", [2])]⟩
    "p" "t" "val" [("c1", "v"), ("c2", "v")] (by decide) (by decide) (by decide)
    0 1 (by decide) (by decide) (by decide) (by decide) (by decide)
  exact ⟨h.1.trans (by decide), by decide⟩

/-- First-occurrence deduplication: emit each identifier the first time it
appears, skipping the ones already in `seen`. -/
def firstDedupAux (seen : List String) : List String → List String
  | [] => []
  | x :: xs =>
    if x ∈ seen then firstDedupAux seen xs
    else x :: firstDedupAux (x :: seen) xs

/-- The distinct identifiers of a list in order of first appearance. -/
def firstDedup (l : List String) : List String := firstDedupAux [] l

/-- A list whose members were all seen already dedups to nothing. -/
theorem firstDedupAux_all_seen (s : List String) :
    ∀ t : List String, (∀ x ∈ t, x ∈ s) → firstDedupAux s t = [] := by
  intro t
  induction t with
  | nil => intro _; rfl
  | cons x xs ih =>
    intro h
    rw [firstDedupAux, if_pos (h x (by simp))]
    exact ih fun y hy => h y (by simp [hy])

/-- A suffix contributing no new identifiers does not change the dedup. -/
theorem firstDedupAux_append_absorb :
    ∀ (l t s : List String), (∀ x ∈ t, x ∈ l ∨ x ∈ s) →
      firstDedupAux s (l ++ t) = firstDedupAux s l := by
  intro l
  induction l with
  | nil =>
    intro t s h
    rw [List.nil_append, firstDedupAux]
    exact firstDedupAux_all_seen s t fun x hx => (h x hx).resolve_left (by simp)
  | cons a l ih =>
    intro t s h
    rw [List.cons_append, firstDedupAux, firstDedupAux]
    by_cases ha : a ∈ s
    · rw [if_pos ha, if_pos ha]
      refine ih t s ?_
      intro x hx
      rcases h x hx with hxl | hxs
      · rcases List.mem_cons.mp hxl with rfl | hxl2
        · exact Or.inr ha
        · exact Or.inl hxl2
      · exact Or.inr hxs
    · rw [if_neg ha, if_neg ha]
      refine congrArg _ (ih t (a :: s) ?_)
      intro x hx
      rcases h x hx with hxl | hxs
      · rcases List.mem_cons.mp hxl with rfl | hxl2
        · exact Or.inr (by simp)
        · exact Or.inl hxl2
      · exact Or.inr (by simp [hxs])

/-- A duplicate-free list of unseen identifiers dedups to itself. -/
theorem firstDedupAux_nodup_self :
    ∀ (l s : List String), l.Nodup → (∀ x ∈ l, x ∉ s) →
      firstDedupAux s l = l := by
  intro l
  induction l with
  | nil => intro s _ _; rfl
  | cons x xs ih =>
    intro s hnd hout
    rw [firstDedupAux, if_neg (hout x (by simp))]
    refine congrArg _ (ih (x :: s) (List.nodup_cons.mp hnd).2 ?_)
    intro y hy
    rw [List.mem_cons]
    rintro (rfl | hys)
    · exact (List.nodup_cons.mp hnd).1 hy
    · exact hout y (by simp [hy]) hys

/-- A run of an already-seen identifier is skipped entirely. -/
theorem firstDedupAux_replicate_seen (x : String) (s : List String)
    (hx : x ∈ s) :
    ∀ (n : Nat) (t : List String),
      firstDedupAux s (List.replicate n x ++ t) = firstDedupAux s t := by
  intro n
  induction n with
  | zero => intro t; rfl
  | succ m ih =>
    intro t
    rw [List.replicate_succ, List.cons_append, firstDedupAux, if_pos hx]
    exact ih t

/-- Dedup of consecutive runs of distinct identifiers: each run collapses
to its identifier. -/
theorem firstDedupAux_blocks (n : Nat) (hn : 0 < n) :
    ∀ (names s : List String), names.Nodup → (∀ x ∈ names, x ∉ s) →
      firstDedupAux s (names.flatMap fun v => List.replicate n v) = names := by
  intro names
  induction names with
  | nil => intro s _ _; rfl
  | cons v names ih =>
    intro s hnd hout
    obtain ⟨m, rfl⟩ : ∃ m, n = m + 1 := ⟨n - 1, by omega⟩
    rw [List.flatMap_cons, List.replicate_succ, List.cons_append, firstDedupAux,
      if_neg (hout v (by simp))]
    rw [firstDedupAux_replicate_seen v (v :: s) (by simp) m]
    refine congrArg _ (ih (v :: s) (List.nodup_cons.mp hnd).2 ?_)
    intro y hy
    rw [List.mem_cons]
    rintro (rfl | hys)
    · exact (List.nodup_cons.mp hnd).1 hy
    · exact hout y (by simp [hy]) hys

/-- Pivot a LongTable back into wide form by grouping its records: the
distinct row identifiers in order of first appearance, and for each
distinct variable identifier (in order of first appearance) the values of
its records, in record order. -/
def pivot (t : LongTable) : WideTable :=
  { rowIds := firstDedup (t.records.map fun q => q.1),
    cols := (firstDedup (t.records.map fun q => q.2.1)).map fun v =>
      (v, (t.records.filter fun q => q.2.1 == v).map fun q => q.2.2) }

/-- The row-identifier column of the melt: the row identifiers repeated
once per column. -/
theorem melt_rowProj (w : WideTable) (rn : List (String × String))
    (hs : ¬ shapeBad w) :
    (meltRecords w rn).map (fun q => q.1) = w.cols.flatMap fun _ => w.rowIds := by
  unfold meltRecords
  rw [List.map_flatMap]
  refine flatMap_congr_mem _ _ _ ?_
  intro c hc
  rw [List.map_map]
  have h1 := zip_map_fst_fun (fun r : String => r) w.rowIds c.2
    (shape_all w hs c hc)
  simpa using h1

/-- The variable-identifier column of the melt: each column's effective
name repeated once per row. -/
theorem melt_varProj (w : WideTable) (rn : List (String × String))
    (hs : ¬ shapeBad w) :
    (meltRecords w rn).map (fun q => q.2.1) =
      w.cols.flatMap fun c => List.replicate w.rowIds.length (renameGet rn c.1) := by
  unfold meltRecords
  rw [List.map_flatMap]
  refine flatMap_congr_mem _ _ _ ?_
  intro c hc
  rw [List.map_map]
  have hz : (w.rowIds.zip c.2).length = w.rowIds.length := by
    simp [shape_all w hs c hc]
  rw [show ((fun (q : LongRec) => q.2.1) ∘ fun rv : String × Value =>
      (rv.1, renameGet rn c.1, rv.2)) = fun _ => renameGet rn c.1 from rfl]
  rw [List.map_const', hz]

/-- Pivoting recovers the row identifiers when they are distinct and at
least one column exists. -/
theorem pivot_rowIds (w : WideTable) (rn : List (String × String))
    (hs : ¬ shapeBad w) (hrow : w.rowIds.Nodup) (hcne : w.cols ≠ []) :
    firstDedup ((meltRecords w rn).map fun q => q.1) = w.rowIds := by
  rw [melt_rowProj w rn hs]
  rcases hc : w.cols with _ | ⟨c0, cs⟩
  · exact absurd hc hcne
  · rw [List.flatMap_cons, firstDedup]
    rw [firstDedupAux_append_absorb w.rowIds _ [] ?_]
    · exact firstDedupAux_nodup_self w.rowIds [] hrow (by simp)
    · intro x hx
      rw [List.mem_flatMap] at hx
      obtain ⟨_, _, hxr⟩ := hx
      exact Or.inl hxr

/-- Pivoting recovers the effective variable identifiers when they are
distinct and at least one row exists. -/
theorem pivot_varIds (w : WideTable) (rn : List (String × String))
    (hs : ¬ shapeBad w) (heff : (effNames w rn).Nodup) (hrne : w.rowIds ≠ []) :
    firstDedup ((meltRecords w rn).map fun q => q.2.1) = effNames w rn := by
  rw [melt_varProj w rn hs]
  have hR : 0 < w.rowIds.length := List.length_pos.mpr hrne
  rw [show (w.cols.flatMap fun c =>
        List.replicate w.rowIds.length (renameGet rn c.1)) =
      ((w.cols.map fun c => renameGet rn c.1).flatMap fun v =>
        List.replicate w.rowIds.length v) from
    (List.flatMap_map _ _ _).symm]
  exact firstDedupAux_blocks w.rowIds.length hR (effNames w rn) [] heff (by simp)

/-- Filtering the melt by one column's effective name keeps exactly that
column's block, provided the effective names are distinct. -/
theorem melt_filter_var (rows : List String) (rn : List (String × String)) :
    ∀ cs : List (String × List Value),
      ((cs.map fun c => renameGet rn c.1).Nodup) →
      ∀ c ∈ cs,
        ((cs.flatMap fun d =>
            (rows.zip d.2).map fun rv => (rv.1, renameGet rn d.1, rv.2)).filter
          fun q => q.2.1 == renameGet rn c.1) =
        (rows.zip c.2).map fun rv => (rv.1, renameGet rn c.1, rv.2) := by
  intro cs
  induction cs with
  | nil => intro _ c hc; exact absurd hc (by simp)
  | cons d cs ih =>
    intro hnd c hc
    simp only [List.map_cons] at hnd
    rw [List.flatMap_cons, List.filter_append]
    rcases List.mem_cons.mp hc with rfl | hc2
    · have hkeep : ((rows.zip c.2).map fun rv =>
          (rv.1, renameGet rn c.1, rv.2)).filter
            (fun q => q.2.1 == renameGet rn c.1) =
          (rows.zip c.2).map fun rv => (rv.1, renameGet rn c.1, rv.2) := by
        rw [List.filter_eq_self]
        intro q hq
        rw [List.mem_map] at hq
        obtain ⟨rv, _, rfl⟩ := hq
        simp
      have hrest : ((cs.flatMap fun d =>
          (rows.zip d.2).map fun rv => (rv.1, renameGet rn d.1, rv.2)).filter
            fun q => q.2.1 == renameGet rn c.1) = [] := by
        rw [List.filter_eq_nil_iff]
        intro q hq
        rw [List.mem_flatMap] at hq
        obtain ⟨e, he, hqe⟩ := hq
        rw [List.mem_map] at hqe
        obtain ⟨rv, _, rfl⟩ := hqe
        have hne : renameGet rn e.1 ≠ renameGet rn c.1 := by
          intro hcontra
          exact (List.nodup_cons.mp hnd).1
            (hcontra ▸ List.mem_map_of_mem (fun x => renameGet rn x.1) he)
        simp [hne]
      rw [hkeep, hrest, List.append_nil]
    · have hneq : renameGet rn d.1 ≠ renameGet rn c.1 := by
        intro hcontra
        exact (List.nodup_cons.mp hnd).1
          (hcontra ▸ List.mem_map_of_mem (fun x => renameGet rn x.1) hc2)
      have hfirst : ((rows.zip d.2).map fun rv =>
          (rv.1, renameGet rn d.1, rv.2)).filter
            (fun q => q.2.1 == renameGet rn c.1) = [] := by
        rw [List.filter_eq_nil_iff]
        intro q hq
        rw [List.mem_map] at hq
        obtain ⟨rv, _, rfl⟩ := hq
        simp [hneq]
      rw [hfirst, List.nil_append]
      exact ih (List.nodup_cons.mp hnd).2 c hc2

/-- The values of one column's block, in row order, are exactly that
column's value sequence. -/
theorem block_values (rows : List String) (rn : List (String × String))
    (c : String × List Value) (hlen : c.2.length = rows.length) :
    (((rows.zip c.2).map fun rv => (rv.1, renameGet rn c.1, rv.2)).map
      fun q => q.2.2) = c.2 := by
  rw [List.map_map]
  exact List.map_snd_zip rows c.2 (le_of_eq hlen)

/-- C8 (amended): for every valid input with pairwise-distinct row
identifiers, injective effective renaming and at least one row and one
column, pivoting the LongTable produced by `toLong` back into wide form
(grouping records by row identifier and variable identifier) reconstructs
the original WideTable value-for-value, with each column identifier
carried through the rename — exactly the original table when the rename
is empty. -/
theorem toLong_pivot_roundtrip (w : WideTable) (a b c : String)
    (rn : List (String × String))
    (hl : ¬ labelsDup a b c) (hs : ¬ shapeBad w) (hr : ¬ renameBad w rn)
    (hrow : w.rowIds.Nodup) (heff : (effNames w rn).Nodup)
    (hrne : w.rowIds ≠ []) (hcne : w.cols ≠ []) :
    toLong w a b c rn = .ok ⟨a, b, c, meltRecords w rn⟩ ∧
    pivot ⟨a, b, c, meltRecords w rn⟩ =
      ⟨w.rowIds, w.cols.map fun col => (renameGet rn col.1, col.2)⟩ := by
  refine ⟨toLong_ok w a b c rn hl hs hr, ?_⟩
  unfold pivot
  simp only []
  rw [pivot_rowIds w rn hs hrow hcne, pivot_varIds w rn hs heff hrne]
  refine congrArg (WideTable.mk w.rowIds) ?_
  rw [effNames, List.map_map]
  refine List.map_congr_left ?_
  intro col hcol
  simp only [Function.comp]
  have hfilter := melt_filter_var w.rowIds rn w.cols
    (by rw [show (w.cols.map fun c => renameGet rn c.1) = effNames w rn from rfl]
        exact heff)
    col hcol
  rw [show meltRecords w rn = w.cols.flatMap fun d =>
      (w.rowIds.zip d.2).map fun rv => (rv.1, renameGet rn d.1, rv.2) from rfl]
  rw [hfilter, block_values w.rowIds rn col (shape_all w hs col hcol)]

/-- C8 witness: melting the notebook's table with rename a/b and pivoting
back yields the original rows and values under the renamed column
identifiers. -/
theorem toLong_pivot_roundtrip_witness :
    toLong untidyExample "person" "treatment" "IgG_level"
        [("treatment_a", "a"), ("treatment_b", "b")] =
      .ok ⟨"person", "treatment", "IgG_level",
        meltRecords untidyExample [("treatment_a", "a"), ("treatment_b", "b")]⟩ ∧
    pivot ⟨"person", "treatment", "IgG_level",
        meltRecords untidyExample [("treatment_a", "a"), ("treatment_b", "b")]⟩ =
      ⟨["John Smith", "Jane Doe", "Mary Johnson"],
       [("a", [9, 16, 3]), ("b", [2, 11, 1])]⟩ := by
  have h := toLong_pivot_roundtrip untidyExample "person" "treatment" "IgG_level"
    [("treatment_a", "a"), ("treatment_b", "b")] (by decide) (by decide)
    (by decide) (by decide) (by decide) (by decide) (by decide)
  exact ⟨h.1, h.2.trans (by decide)⟩

/-- C8 counterexample: the WideTable invariant does not force distinct row
identifiers, and with a repeated row identifier the melt loses the row
multiplicity: pivoting back yields a one-row table, not the original. -/
theorem toLong_pivot_roundtrip_cex :
    toLong ⟨["u", "u"], [("d", [3, 4])]⟩ "p" "t" "v" [] =
      .ok ⟨"p", "t", "v", [("u", "d", 3), ("u", "d", 4)]⟩ ∧
    pivot ⟨"p", "t", "v", [("u", "d", 3), ("u", "d", 4)]⟩ =
      ⟨["u"], [("d", [3, 4])]⟩ ∧
    (⟨["u"], [("d", [3, 4])]⟩ : WideTable) ≠ ⟨["u", "u"], [("d", [3, 4])]⟩ :=
  ⟨by decide, by decide, by decide⟩
